import Mathlib

/-!
Shallow embedding of the core data transformations of the football
rankings server (`src/index.js`): the name normalizer `norm`, the team
directory / logo resolver `buildTeamLogosMap`, the game record
aggregator (`baseRecords` in the `/projections` route), the statistics
averager (`rowsByTeam` in the `/stats` route) and the poll ranking
extractor (the week loop of the `/polls` route).

JavaScript objects are modelled as association lists in insertion
order; JavaScript runtime values occurring in score / stat fields are
modelled by the inductive `JVal`; JavaScript numbers are modelled as
rationals.
-/

namespace FR

/-- Model of a JavaScript value sitting in a score or stat field.
`undef` is `undefined` (an absent field); `nullv` is `null`; `num q`
is a finite number; `strNum q` is a non-number value (e.g. a numeric
string) whose `Number(-)` conversion is the finite number `q`;
`nonNum` is `NaN`, an infinity, or any other value whose `Number(-)`
conversion is not finite. -/
inductive JVal where
  | undef : JVal
  | nullv : JVal
  | nonNum : JVal
  | strNum : ℚ → JVal
  | num : ℚ → JVal
deriving DecidableEq, Repr

/-- The JavaScript nullish-coalescing operator `a ?? b`. -/
def JVal.coalesce : JVal → JVal → JVal
  | .undef, b => b
  | .nullv, b => b
  | a, _ => a

/-- The JavaScript test `Number.isFinite(v)`: true exactly on finite
numbers (no coercion is performed). -/
def JVal.isFiniteNum : JVal → Bool
  | .num _ => true
  | _ => false

/-- The JavaScript conversion `Number(v)`: `Number(undefined)` is `NaN`,
`Number(null)` is `0`, a numeric string converts to its value, and a
finite number is unchanged. -/
def JVal.toNumber : JVal → JVal
  | .undef => .nonNum
  | .nullv => .num 0
  | .nonNum => .nonNum
  | .strNum q => .num q
  | .num q => .num q

/-- The JavaScript fallback `a || b` on an optional string: an absent
value and the empty string are falsy. -/
def strOr (a : Option String) (b : String) : String :=
  match a with
  | some s => if s = "" then b else s
  | none => b

/-- The JavaScript fallback `a || b` where both sides are optional
strings (used for three-way `x || y || z` chains). -/
def strOrOpt (a b : Option String) : Option String :=
  match a with
  | some s => if s = "" then b else some s
  | none => b

/-- Truthiness of an optional string: present and nonempty. -/
def truthyOpt : Option String → Bool
  | some s => decide (s ≠ "")
  | none => false

/-! ### Association lists modelling JavaScript objects / Maps

Keys are kept in insertion order; writing to an existing key updates
it in place, writing to a fresh key appends it, matching both plain
object property assignment and `Map.prototype.set`. -/

/-- Property read `m[k]`: `none` models `undefined` (key absent). -/
def mget {β : Type} : List (String × β) → String → Option β
  | [], _ => none
  | (k, v) :: rest, key => if key = k then some v else mget rest key

/-- Property write `m[k] = v` (update in place, else append). -/
def mset {β : Type} : List (String × β) → String → β → List (String × β)
  | [], key, v => [(key, v)]
  | (k, w) :: rest, key, v =>
      if key = k then (k, v) :: rest else (k, w) :: mset rest key v

/-- In-place mutation of an existing property (`m[k].field++`); a no-op
when the key is absent. -/
def mupd {β : Type} : List (String × β) → String → (β → β) → List (String × β)
  | [], _, _ => []
  | (k, w) :: rest, key, f =>
      if key = k then (k, f w) :: rest else (k, w) :: mupd rest key f

theorem mget_mset_self {β : Type} (m : List (String × β)) (k : String) (v : β) :
    mget (mset m k v) k = some v := by
  induction m with
  | nil => simp [mget, mset]
  | cons p rest ih =>
      obtain ⟨k1, w⟩ := p
      by_cases h : k = k1 <;> simp [mget, mset, h, ih]

theorem mget_mset_ne {β : Type} (m : List (String × β)) (k k2 : String) (v : β)
    (h : k2 ≠ k) : mget (mset m k v) k2 = mget m k2 := by
  induction m with
  | nil => simp [mget, mset, h]
  | cons p rest ih =>
      obtain ⟨k1, w⟩ := p
      by_cases h1 : k = k1
      · subst h1; simp [mget, mset, h]
      · by_cases h2 : k2 = k1 <;> simp [mget, mset, h1, h2, ih]

theorem mget_mupd_self {β : Type} (m : List (String × β)) (k : String)
    (f : β → β) (w : β) (h : mget m k = some w) :
    mget (mupd m k f) k = some (f w) := by
  induction m with
  | nil => simp [mget] at h
  | cons p rest ih =>
      obtain ⟨k1, w1⟩ := p
      by_cases h1 : k = k1
      · subst h1
        simp [mget] at h
        simp [mget, mupd, h]
      · simp [mget, h1] at h
        simp [mget, mupd, h1, ih h]

theorem mupd_of_mget_none {β : Type} (m : List (String × β)) (k : String)
    (f : β → β) (h : mget m k = none) : mupd m k f = m := by
  induction m with
  | nil => simp [mupd]
  | cons p rest ih =>
      obtain ⟨k1, w1⟩ := p
      by_cases h1 : k = k1
      · simp [mget, h1] at h
      · simp [mget, h1] at h
        simp [mupd, h1, ih h]

theorem mget_mupd_ne {β : Type} (m : List (String × β)) (k k2 : String)
    (f : β → β) (h : k2 ≠ k) : mget (mupd m k f) k2 = mget m k2 := by
  induction m with
  | nil => simp [mupd]
  | cons p rest ih =>
      obtain ⟨k1, w1⟩ := p
      by_cases h1 : k = k1
      · subst h1; simp [mget, mupd, h]
      · by_cases h2 : k2 = k1 <;> simp [mget, mupd, h1, h2, ih]

theorem mget_mset_isSome {β : Type} (m : List (String × β)) (k k2 : String)
    (v : β) (h : (mget m k2).isSome) : (mget (mset m k v) k2).isSome := by
  by_cases hk : k2 = k
  · subst hk; simp [mget_mset_self]
  · rwa [mget_mset_ne m k k2 v hk]

theorem mget_mupd_isSome {β : Type} (m : List (String × β)) (k k2 : String)
    (f : β → β) (h : (mget m k2).isSome) : (mget (mupd m k f) k2).isSome := by
  by_cases hk : k2 = k
  · subst hk
    obtain ⟨w, hw⟩ := Option.isSome_iff_exists.mp h
    simp [mget_mupd_self m k2 f w hw]
  · rwa [mget_mupd_ne m k k2 f hk]

/-! ### Name normalizer (`norm`, src/index.js lines 76-81)

`String(s || '').toLowerCase().replace(/&/g, 'and').replace(/[^a-z0-9]/g, '')`,
modelled on code points (`toLowerCase` is modelled on its ASCII range;
characters outside `[a-z0-9]` are removed afterwards either way). -/

/-- ASCII action of `String.prototype.toLowerCase`. -/
def toLowerAscii (c : Char) : Char :=
  if 65 ≤ c.toNat ∧ c.toNat ≤ 90 then Char.ofNat (c.toNat + 32) else c

/-- One step of `replace(/&/g, 'and')`. -/
def ampRep (c : Char) : List Char :=
  if c = '&' then ['a', 'n', 'd'] else [c]

/-- A character surviving `replace(/[^a-z0-9]/g, '')`. -/
def isKeptChar (c : Char) : Bool :=
  decide ((97 ≤ c.toNat ∧ c.toNat ≤ 122) ∨ (48 ≤ c.toNat ∧ c.toNat ≤ 57))

/-- Normalization pipeline on the underlying character list. -/
def normChars (cs : List Char) : List Char :=
  (((cs.map toLowerAscii).map ampRep).flatten).filter isKeptChar

/-- The normalizer `norm` of src/index.js. -/
def norm (s : String) : String := ⟨normChars s.data⟩

theorem toLowerAscii_of_kept (c : Char) (h : isKeptChar c = true) :
    toLowerAscii c = c := by
  simp [isKeptChar] at h
  rw [toLowerAscii, if_neg]
  omega

theorem ampRep_of_kept (c : Char) (h : isKeptChar c = true) :
    ampRep c = [c] := by
  simp [isKeptChar] at h
  rw [ampRep, if_neg]
  intro hc
  subst hc
  simp at h

theorem normChars_of_kept (cs : List Char) (h : ∀ c ∈ cs, isKeptChar c = true) :
    normChars cs = cs := by
  induction cs with
  | nil => rfl
  | cons c rest ih =>
      have hc := h c (List.mem_cons_self c rest)
      have hrest : ∀ x ∈ rest, isKeptChar x = true :=
        fun x hx => h x (List.mem_cons_of_mem c hx)
      have ihr := ih hrest
      simp only [normChars, List.map_cons, List.flatten_cons, List.filter_append] at ihr ⊢
      rw [toLowerAscii_of_kept c hc, ampRep_of_kept c hc, ihr]
      simp [List.filter, hc]

theorem mem_normChars_kept (cs : List Char) (c : Char) (h : c ∈ normChars cs) :
    isKeptChar c = true := by
  simp only [normChars] at h
  exact (List.mem_filter.mp h).2

/-- C8: the name normalizer is idempotent: for every string `s`,
`norm (norm s) = norm s`. -/
theorem norm_idem (s : String) : norm (norm s) = norm s := by
  show (⟨normChars (norm s).data⟩ : String) = norm s
  have hdata : (norm s).data = normChars s.data := rfl
  rw [hdata, normChars_of_kept _ (fun c hc => mem_normChars_kept _ c hc)]
  rfl

/-! ### Game record aggregator (`baseRecords`, src/index.js lines 167-178) -/

/-- A raw game payload: score fields under both naming conventions
(`home_points` / `homePoints` etc.) and team-name fields under both
conventions. The camelCase name fields are modelled as plain strings,
the snake_case ones as optional (absent or present). -/
structure Game where
  home_points : JVal
  homePoints : JVal
  away_points : JVal
  awayPoints : JVal
  home_team : Option String
  homeTeam : String
  away_team : Option String
  awayTeam : String
deriving DecidableEq, Repr

/-- The effective home score `g.home_points ?? g.homePoints`. -/
def Game.hp (g : Game) : JVal := g.home_points.coalesce g.homePoints

/-- The effective away score `g.away_points ?? g.awayPoints`. -/
def Game.ap (g : Game) : JVal := g.away_points.coalesce g.awayPoints

/-- A game is counted when both effective scores are finite numbers. -/
def Game.completed (g : Game) : Bool := g.hp.isFiniteNum && g.ap.isFiniteNum

/-- The effective home team name `g.home_team || g.homeTeam`. -/
def Game.homeName (g : Game) : String := strOr g.home_team g.homeTeam

/-- The effective away team name `g.away_team || g.awayTeam`. -/
def Game.awayName (g : Game) : String := strOr g.away_team g.awayTeam

/-- A per-team win/loss record. -/
structure TeamRecord where
  wins : Nat
  losses : Nat
deriving DecidableEq, Repr

/-- `r.wins++`. -/
def incWins (r : TeamRecord) : TeamRecord := { r with wins := r.wins + 1 }

/-- `r.losses++`. -/
def incLosses (r : TeamRecord) : TeamRecord := { r with losses := r.losses + 1 }

/-- `baseRecords[k] = baseRecords[k] || \x7bwins: 0, losses: 0\x7d`. -/
def ensureRec (m : List (String × TeamRecord)) (k : String) :
    List (String × TeamRecord) :=
  match mget m k with
  | some _ => m
  | none => mset m k ⟨0, 0⟩

/-- One iteration of the `games.forEach` loop building `baseRecords`. -/
def recStep (m : List (String × TeamRecord)) (g : Game) :
    List (String × TeamRecord) :=
  match g.hp, g.ap with
  | .num h, .num a =>
      let home := g.homeName
      let away := g.awayName
      let m2 := ensureRec (ensureRec m home) away
      if a < h then
        mupd (mupd m2 home incWins) away incLosses
      else
        mupd (mupd m2 away incWins) home incLosses
  | _, _ => m

/-- The `baseRecords` aggregation of the `/projections` route. -/
def baseRecords (games : List Game) : List (String × TeamRecord) :=
  games.foldl recStep []

/-- Number of games whose two effective scores are both finite. -/
def countCompleted (games : List Game) : Nat :=
  (games.filter (fun g => g.completed)).length

/-- Total wins over all teams of a record map. -/
def sumWins (m : List (String × TeamRecord)) : Nat :=
  (m.map (fun p => p.2.wins)).sum

/-- Total losses over all teams of a record map. -/
def sumLosses (m : List (String × TeamRecord)) : Nat :=
  (m.map (fun p => p.2.losses)).sum

theorem recStep_not_completed (m : List (String × TeamRecord)) (g : Game)
    (h : g.completed = false) : recStep m g = m := by
  rw [recStep]
  cases hh : g.hp <;> cases ha : g.ap <;>
    simp_all [Game.completed, JVal.isFiniteNum]

theorem mget_ensureRec_self (m : List (String × TeamRecord)) (k : String) :
    mget (ensureRec m k) k = some ((mget m k).getD ⟨0, 0⟩) := by
  rw [ensureRec]
  cases h : mget m k with
  | some r => simp [h]
  | none => simp [mget_mset_self]

theorem mget_ensureRec_ne (m : List (String × TeamRecord)) (k k2 : String)
    (h : k2 ≠ k) : mget (ensureRec m k) k2 = mget m k2 := by
  rw [ensureRec]
  cases hk : mget m k with
  | some r => rfl
  | none => exact mget_mset_ne m k k2 _ h

theorem sumWins_ensureRec (m : List (String × TeamRecord)) (k : String) :
    sumWins (ensureRec m k) = sumWins m := by
  rw [ensureRec]
  cases hk : mget m k with
  | some r => rfl
  | none =>
      induction m with
      | nil => simp [mset, sumWins]
      | cons p rest ih =>
          obtain ⟨k1, w⟩ := p
          by_cases h1 : k = k1
          · simp [mget, h1] at hk
          · simp [mget, h1] at hk
            simp [mset, h1, sumWins] at ih ⊢
            exact ih hk

theorem sumLosses_ensureRec (m : List (String × TeamRecord)) (k : String) :
    sumLosses (ensureRec m k) = sumLosses m := by
  rw [ensureRec]
  cases hk : mget m k with
  | some r => rfl
  | none =>
      induction m with
      | nil => simp [mset, sumLosses]
      | cons p rest ih =>
          obtain ⟨k1, w⟩ := p
          by_cases h1 : k = k1
          · simp [mget, h1] at hk
          · simp [mget, h1] at hk
            simp [mset, h1, sumLosses] at ih ⊢
            exact ih hk

theorem sumWins_mupd_incWins (m : List (String × TeamRecord)) (k : String)
    (h : (mget m k).isSome) : sumWins (mupd m k incWins) = sumWins m + 1 := by
  induction m with
  | nil => simp [mget] at h
  | cons p rest ih =>
      obtain ⟨k1, w⟩ := p
      by_cases h1 : k = k1
      · simp [mupd, h1, sumWins, incWins]
        omega
      · simp [mget, h1] at h
        simp [mupd, h1, sumWins] at ih ⊢
        rw [ih h]
        omega

theorem sumLosses_mupd_incLosses (m : List (String × TeamRecord)) (k : String)
    (h : (mget m k).isSome) :
    sumLosses (mupd m k incLosses) = sumLosses m + 1 := by
  induction m with
  | nil => simp [mget] at h
  | cons p rest ih =>
      obtain ⟨k1, w⟩ := p
      by_cases h1 : k = k1
      · simp [mupd, h1, sumLosses, incLosses]
        omega
      · simp [mget, h1] at h
        simp [mupd, h1, sumLosses] at ih ⊢
        rw [ih h]
        omega

theorem sumWins_mupd_incLosses (m : List (String × TeamRecord)) (k : String) :
    sumWins (mupd m k incLosses) = sumWins m := by
  induction m with
  | nil => simp [mupd]
  | cons p rest ih =>
      obtain ⟨k1, w⟩ := p
      by_cases h1 : k = k1
      · simp [mupd, h1, sumWins, incLosses]
      · simp [mupd, h1, sumWins] at ih ⊢
        omega

theorem sumLosses_mupd_incWins (m : List (String × TeamRecord)) (k : String) :
    sumLosses (mupd m k incWins) = sumLosses m := by
  induction m with
  | nil => simp [mupd]
  | cons p rest ih =>
      obtain ⟨k1, w⟩ := p
      by_cases h1 : k = k1
      · simp [mupd, h1, sumLosses, incWins]
      · simp [mupd, h1, sumLosses] at ih ⊢
        omega

theorem mget_ensureRec_isSome (m : List (String × TeamRecord)) (k k2 : String)
    (h : (mget m k2).isSome) : (mget (ensureRec m k) k2).isSome := by
  rw [ensureRec]
  cases hk : mget m k with
  | some r => exact h
  | none => exact mget_mset_isSome m k k2 _ h

theorem mget_ensureRec_self_isSome (m : List (String × TeamRecord)) (k : String) :
    (mget (ensureRec m k) k).isSome := by
  rw [mget_ensureRec_self]
  rfl

theorem recStep_completed_num (g : Game) (h : g.completed = true) :
    ∃ hq aq, g.hp = JVal.num hq ∧ g.ap = JVal.num aq := by
  rw [Game.completed, Bool.and_eq_true] at h
  obtain ⟨h1, h2⟩ := h
  cases hh : g.hp <;> cases ha : g.ap <;> simp_all [JVal.isFiniteNum]

theorem recStep_homeWin (m : List (String × TeamRecord)) (g : Game)
    (hq aq : ℚ) (hh : g.hp = JVal.num hq) (ha : g.ap = JVal.num aq)
    (hgt : aq < hq) (hne : g.homeName ≠ g.awayName) :
    mget (recStep m g) g.homeName
      = some (incWins ((mget m g.homeName).getD ⟨0, 0⟩)) ∧
    mget (recStep m g) g.awayName
      = some (incLosses ((mget m g.awayName).getD ⟨0, 0⟩)) := by
  have hne2 : g.awayName ≠ g.homeName := fun e => hne e.symm
  rw [recStep, hh, ha]
  simp only [if_pos hgt]
  have hm2home : mget (ensureRec (ensureRec m g.homeName) g.awayName) g.homeName
      = some ((mget m g.homeName).getD ⟨0, 0⟩) := by
    rw [mget_ensureRec_ne _ _ _ hne, mget_ensureRec_self]
  have hm2away : mget (ensureRec (ensureRec m g.homeName) g.awayName) g.awayName
      = some ((mget m g.awayName).getD ⟨0, 0⟩) := by
    rw [mget_ensureRec_self, mget_ensureRec_ne _ _ _ hne2]
  constructor
  · rw [mget_mupd_ne _ _ _ _ hne, mget_mupd_self _ _ _ _ hm2home]
  · rw [mget_mupd_self _ _ _ _ (by rw [mget_mupd_ne _ _ _ _ hne2]; exact hm2away)]

theorem recStep_awayWin (m : List (String × TeamRecord)) (g : Game)
    (hq aq : ℚ) (hh : g.hp = JVal.num hq) (ha : g.ap = JVal.num aq)
    (hle : hq ≤ aq) (hne : g.homeName ≠ g.awayName) :
    mget (recStep m g) g.awayName
      = some (incWins ((mget m g.awayName).getD ⟨0, 0⟩)) ∧
    mget (recStep m g) g.homeName
      = some (incLosses ((mget m g.homeName).getD ⟨0, 0⟩)) := by
  have hne2 : g.awayName ≠ g.homeName := fun e => hne e.symm
  rw [recStep, hh, ha]
  simp only [if_neg (not_lt.mpr hle)]
  have hm2home : mget (ensureRec (ensureRec m g.homeName) g.awayName) g.homeName
      = some ((mget m g.homeName).getD ⟨0, 0⟩) := by
    rw [mget_ensureRec_ne _ _ _ hne, mget_ensureRec_self]
  have hm2away : mget (ensureRec (ensureRec m g.homeName) g.awayName) g.awayName
      = some ((mget m g.awayName).getD ⟨0, 0⟩) := by
    rw [mget_ensureRec_self, mget_ensureRec_ne _ _ _ hne2]
  constructor
  · rw [mget_mupd_ne _ _ _ _ hne2, mget_mupd_self _ _ _ _ hm2away]
  · rw [mget_mupd_self _ _ _ _ (by rw [mget_mupd_ne _ _ _ _ hne]; exact hm2home)]

theorem recStep_mget_other (m : List (String × TeamRecord)) (g : Game)
    (t : String) (h : g.completed = true → g.homeName ≠ t ∧ g.awayName ≠ t) :
    mget (recStep m g) t = mget m t := by
  cases hc : g.completed with
  | false => rw [recStep_not_completed m g hc]
  | true =>
      obtain ⟨hth, hta⟩ := h hc
      have hth2 : t ≠ g.homeName := fun e => hth e.symm
      have hta2 : t ≠ g.awayName := fun e => hta e.symm
      obtain ⟨hq, aq, hh, ha⟩ := recStep_completed_num g hc
      rw [recStep, hh, ha]
      by_cases hgt : aq < hq
      · simp only [if_pos hgt]
        rw [mget_mupd_ne _ _ _ _ hta2, mget_mupd_ne _ _ _ _ hth2,
          mget_ensureRec_ne _ _ _ hta2, mget_ensureRec_ne _ _ _ hth2]
      · simp only [if_neg hgt]
        rw [mget_mupd_ne _ _ _ _ hth2, mget_mupd_ne _ _ _ _ hta2,
          mget_ensureRec_ne _ _ _ hta2, mget_ensureRec_ne _ _ _ hth2]

theorem foldl_recStep_absent (games : List Game)
    (m : List (String × TeamRecord)) (t : String)
    (h : ∀ g ∈ games, g.completed = true → g.homeName ≠ t ∧ g.awayName ≠ t)
    (hm : mget m t = none) : mget (games.foldl recStep m) t = none := by
  induction games generalizing m with
  | nil => exact hm
  | cons g rest ih =>
      simp only [List.foldl_cons]
      refine ih (recStep m g) (fun x hx => h x (List.mem_cons_of_mem g hx)) ?_
      rw [recStep_mget_other m g t (h g (List.mem_cons_self g rest))]
      exact hm

/-- C1: the record aggregator counts a game only when both effective
scores are finite; a counted game with strictly greater home score
increments the home team's wins and the away team's losses, and
otherwise (ties included) increments the away team's wins and the home
team's losses; a team appearing in no counted game is absent from the
output. -/
theorem baseRecords_correct :
    (∀ (m : List (String × TeamRecord)) (g : Game),
        g.completed = false → recStep m g = m) ∧
    (∀ (m : List (String × TeamRecord)) (g : Game) (hq aq : ℚ),
        g.hp = JVal.num hq → g.ap = JVal.num aq → aq < hq →
        g.homeName ≠ g.awayName →
        mget (recStep m g) g.homeName
          = some (incWins ((mget m g.homeName).getD ⟨0, 0⟩)) ∧
        mget (recStep m g) g.awayName
          = some (incLosses ((mget m g.awayName).getD ⟨0, 0⟩))) ∧
    (∀ (m : List (String × TeamRecord)) (g : Game) (hq aq : ℚ),
        g.hp = JVal.num hq → g.ap = JVal.num aq → hq ≤ aq →
        g.homeName ≠ g.awayName →
        mget (recStep m g) g.awayName
          = some (incWins ((mget m g.awayName).getD ⟨0, 0⟩)) ∧
        mget (recStep m g) g.homeName
          = some (incLosses ((mget m g.homeName).getD ⟨0, 0⟩))) ∧
    (∀ (games : List Game) (t : String),
        (∀ g ∈ games, g.completed = true → g.homeName ≠ t ∧ g.awayName ≠ t) →
        mget (baseRecords games) t = none) := by
  refine ⟨recStep_not_completed, ?_, ?_, ?_⟩
  · intro m g hq aq hh ha hgt hne
    exact recStep_homeWin m g hq aq hh ha hgt hne
  · intro m g hq aq hh ha hle hne
    exact recStep_awayWin m g hq aq hh ha hle hne
  · intro games t h
    exact foldl_recStep_absent games [] t h rfl

/-- Concrete game used by witnesses: A 20, B 10 under the camelCase
convention. -/
def gameAB : Game :=
  { home_points := JVal.undef, homePoints := JVal.num 20
    away_points := JVal.undef, awayPoints := JVal.num 10
    home_team := none, homeTeam := "A"
    away_team := none, awayTeam := "B" }

/-- Concrete game with a missing away score. -/
def gameNoAway : Game :=
  { home_points := JVal.undef, homePoints := JVal.num 20
    away_points := JVal.undef, awayPoints := JVal.undef
    home_team := none, homeTeam := "A"
    away_team := none, awayTeam := "B" }

/-- Witness for C1: evaluating the aggregator at concrete games. -/
theorem baseRecords_correct_witness :
    recStep [] gameNoAway = [] ∧
    mget (recStep [] gameAB) "A" = some ⟨1, 0⟩ ∧
    mget (recStep [] gameAB) "B" = some ⟨0, 1⟩ ∧
    mget (baseRecords [gameNoAway]) "B" = none := by
  refine ⟨baseRecords_correct.1 [] gameNoAway (by decide), ?_, ?_,
    baseRecords_correct.2.2.2 [gameNoAway] "B" (by decide)⟩
  · have h := (baseRecords_correct.2.1 [] gameAB 20 10 (by decide) (by decide)
      (by norm_num) (by decide)).1
    simpa using h
  · have h := (baseRecords_correct.2.1 [] gameAB 20 10 (by decide) (by decide)
      (by norm_num) (by decide)).2
    simpa using h

theorem recStep_sums (m : List (String × TeamRecord)) (g : Game)
    (hc : g.completed = true) :
    sumWins (recStep m g) = sumWins m + 1 ∧
    sumLosses (recStep m g) = sumLosses m + 1 := by
  obtain ⟨hq, aq, hh, ha⟩ := recStep_completed_num g hc
  rw [recStep, hh, ha]
  have hhomeS : (mget (ensureRec (ensureRec m g.homeName) g.awayName)
      g.homeName).isSome :=
    mget_ensureRec_isSome _ _ _ (mget_ensureRec_self_isSome m g.homeName)
  have hawayS : (mget (ensureRec (ensureRec m g.homeName) g.awayName)
      g.awayName).isSome :=
    mget_ensureRec_self_isSome _ g.awayName
  have hW : sumWins (ensureRec (ensureRec m g.homeName) g.awayName)
      = sumWins m := by
    rw [sumWins_ensureRec, sumWins_ensureRec]
  have hL : sumLosses (ensureRec (ensureRec m g.homeName) g.awayName)
      = sumLosses m := by
    rw [sumLosses_ensureRec, sumLosses_ensureRec]
  by_cases hgt : aq < hq
  · simp only [if_pos hgt]
    constructor
    · rw [sumWins_mupd_incLosses, sumWins_mupd_incWins _ _ hhomeS, hW]
    · rw [sumLosses_mupd_incLosses _ _
        (mget_mupd_isSome _ _ _ _ hawayS), sumLosses_mupd_incWins, hL]
  · simp only [if_neg hgt]
    constructor
    · rw [sumWins_mupd_incLosses, sumWins_mupd_incWins _ _ hawayS, hW]
    · rw [sumLosses_mupd_incLosses _ _
        (mget_mupd_isSome _ _ _ _ hhomeS), sumLosses_mupd_incWins, hL]

theorem foldl_recStep_sums (games : List Game)
    (m : List (String × TeamRecord)) :
    sumWins (games.foldl recStep m) = sumWins m + countCompleted games ∧
    sumLosses (games.foldl recStep m) = sumLosses m + countCompleted games := by
  induction games generalizing m with
  | nil => simp [countCompleted]
  | cons g rest ih =>
      simp only [List.foldl_cons]
      obtain ⟨ihW, ihL⟩ := ih (recStep m g)
      cases hc : g.completed with
      | false =>
          constructor
          · rw [ihW, recStep_not_completed m g hc]
            simp [countCompleted, hc]
          · rw [ihL, recStep_not_completed m g hc]
            simp [countCompleted, hc]
      | true =>
          obtain ⟨hW, hL⟩ := recStep_sums m g hc
          constructor
          · rw [ihW, hW]; simp [countCompleted, List.filter, hc]; omega
          · rw [ihL, hL]; simp [countCompleted, List.filter, hc]; omega

/-- C9: over any list of games, total wins equal total losses equal the
number of games with finite scores on both sides. -/
theorem baseRecords_balance (games : List Game) :
    sumWins (baseRecords games) = countCompleted games ∧
    sumLosses (baseRecords games) = countCompleted games := by
  have h := foldl_recStep_sums games []
  simpa [baseRecords, sumWins, sumLosses] using h

/-! ### Team directory and logo resolver (`buildTeamLogosMap`,
src/index.js lines 84-125) -/

/-- A CFBD team metadata record as consumed by `buildTeamLogosMap`. -/
structure TeamMeta where
  school : Option String
  abbreviation : Option String
  alternateNames : Option (List String)
  mascot : Option String
  logos : Option (List String)
deriving DecidableEq, Repr

/-- `Array.isArray(t.logos) && t.logos.length ? t.logos[0] : null`. -/
def primaryLogo (t : TeamMeta) : Option String :=
  match t.logos with
  | some (l :: _) => some l
  | _ => none

/-- The lightweight entry stored in the three lookup indexes. -/
structure DirEntry where
  school : Option String
  abbreviation : Option String
  alternateNames : List String
  logo : Option String
deriving DecidableEq, Repr

/-- The entry built for one metadata record. -/
def entryOf (t : TeamMeta) : DirEntry :=
  { school := t.school, abbreviation := t.abbreviation
    alternateNames := t.alternateNames.getD [], logo := primaryLogo t }

/-- The three lookup Maps (`bySchool`, `byAbbr`, `byAlt`). -/
structure Directory where
  bySchool : List (String × DirEntry)
  byAbbr : List (String × DirEntry)
  byAlt : List (String × DirEntry)
deriving DecidableEq, Repr

/-- String interpolation of a possibly-undefined value (a template
literal renders `undefined` as the text "undefined"). -/
def jsStrOfOpt (o : Option String) : String :=
  match o with
  | some s => s
  | none => "undefined"

/-- One iteration of the `teamsMeta.forEach` indexing loop. -/
def addTeam (d : Directory) (t : TeamMeta) : Directory :=
  let e := entryOf t
  let d1 := if truthyOpt t.school then
      { d with bySchool := mset d.bySchool (norm (t.school.getD "")) e }
    else d
  let d2 := if truthyOpt t.abbreviation then
      { d1 with byAbbr := mset d1.byAbbr (norm (t.abbreviation.getD "")) e }
    else d1
  let d3 := { d2 with
    byAlt := ((t.alternateNames.getD []).foldl
      (fun mm a => mset mm (norm a) e) d2.byAlt) }
  if truthyOpt t.mascot then
    { d3 with byAlt := (mset d3.byAlt
        (norm (jsStrOfOpt t.school ++ " " ++ t.mascot.getD "")) e) }
  else d3

/-- The full indexing pass over the metadata list. -/
def buildDirectory (meta : List TeamMeta) : Directory :=
  meta.foldl addTeam ⟨[], [], []⟩

/-- A whitespace character for the `\s` regex class (ASCII range). -/
def jsSpace (c : Char) : Bool :=
  c == ' ' || c == '\t' || c == '\n' || c == '\r' ||
    c.toNat == 11 || c.toNat == 12

/-- Attempt to match the regex `\s*\([^)]*\)\s*` at the head of the
character list, returning the remainder after the match. -/
def tryMatch (l : List Char) : Option (List Char) :=
  match l.dropWhile jsSpace with
  | '(' :: r =>
      match r.dropWhile (fun c => !(c == ')')) with
      | ')' :: r2 => some (r2.dropWhile jsSpace)
      | _ => none
  | _ => none

/-- Left-to-right global scan of `replace(/\s*\([^)]*\)\s*/g, '')`,
with a fuel argument bounding the recursion depth (`tryMatch` strictly
shortens the list, so fuel equal to the initial length is never
exhausted). -/
def stripLoopF : Nat → List Char → List Char
  | 0, l => l
  | fuel + 1, l =>
      match l with
      | [] => []
      | c :: cs =>
          match tryMatch (c :: cs) with
          | some rest => stripLoopF fuel rest
          | none => c :: stripLoopF fuel cs

/-- `name.replace(/\s*\([^)]*\)\s*/g, '')`. -/
def stripParens (s : String) : String := ⟨stripLoopF s.data.length s.data⟩

/-- The four-step fallback chain resolving a raw schedule name to a
directory entry (src/index.js lines 107-113). -/
def resolveEntry (d : Directory) (name : String) : Option DirEntry :=
  match mget d.bySchool (norm name) with
  | some e => some e
  | none =>
      match mget d.byAlt (norm name) with
      | some e => some e
      | none =>
          match mget d.bySchool (norm (stripParens name)) with
          | some e => some e
          | none => mget d.byAbbr (norm name)

/-- `hit && hit.logo ? hit.logo : null` (an empty-string logo is
falsy and also yields null). -/
def resolveLogo (d : Directory) (name : String) : Option String :=
  match resolveEntry d name with
  | some e =>
      match e.logo with
      | some l => if l = "" then none else some l
      | none => none
  | none => none

/-- The per-schedule-name resolution pass filling `teamLogos`; in the
resulting map a value `none` models JavaScript `null`, an absent key
models `undefined`. -/
def firstPass (fbsTeams : List String) (meta : List TeamMeta) :
    List (String × Option String) :=
  let d := buildDirectory meta
  fbsTeams.foldl (fun m name => mset m name (resolveLogo d name)) []

/-- Truthiness of `teamLogos[k]`: the key is present with a non-null,
nonempty logo. -/
def truthyLogoVal : Option (Option String) → Bool
  | some (some s) => decide (s ≠ "")
  | _ => false

/-- One iteration of the supplementary pass:
`if (t.school && !teamLogos[t.school]) teamLogos[t.school] = primaryLogo`. -/
def suppStep (m : List (String × Option String)) (t : TeamMeta) :
    List (String × Option String) :=
  if truthyOpt t.school && !truthyLogoVal (mget m (t.school.getD "")) then
    mset m (t.school.getD "") (primaryLogo t)
  else m

/-- The supplementary pass over the whole metadata list. -/
def suppPass (meta : List TeamMeta) (m : List (String × Option String)) :
    List (String × Option String) :=
  meta.foldl suppStep m

/-- The complete `buildTeamLogosMap`. -/
def buildTeamLogosMap (fbsTeams : List String) (meta : List TeamMeta) :
    List (String × Option String) :=
  suppPass meta (firstPass fbsTeams meta)

/-- C4: the resolver tries the four lookups in fixed priority order
(school, alternate/mascot, school after stripping a parenthesized
suffix, abbreviation) and the result comes from the first that hits. -/
theorem resolveEntry_priority (d : Directory) (name : String) :
    (∀ e, mget d.bySchool (norm name) = some e →
        resolveEntry d name = some e) ∧
    (mget d.bySchool (norm name) = none →
      ∀ e, mget d.byAlt (norm name) = some e →
        resolveEntry d name = some e) ∧
    (mget d.bySchool (norm name) = none →
      mget d.byAlt (norm name) = none →
      ∀ e, mget d.bySchool (norm (stripParens name)) = some e →
        resolveEntry d name = some e) ∧
    (mget d.bySchool (norm name) = none →
      mget d.byAlt (norm name) = none →
      mget d.bySchool (norm (stripParens name)) = none →
      resolveEntry d name = mget d.byAbbr (norm name)) := by
  refine ⟨?_, ?_, ?_, ?_⟩
  · intro e h1
    simp [resolveEntry, h1]
  · intro h1 e h2
    simp [resolveEntry, h1, h2]
  · intro h1 h2 e h3
    simp [resolveEntry, h1, h2, h3]
  · intro h1 h2 h3
    simp [resolveEntry, h1, h2, h3]

/-- Concrete team metadata used by witnesses: school "X" with one logo. -/
def cexT1 : TeamMeta :=
  { school := some "X", abbreviation := none, alternateNames := none
    mascot := none, logos := some ["L1"] }

/-- Concrete team metadata whose school also normalizes to "x" but
whose logo list is empty. -/
def cexT2 : TeamMeta :=
  { school := some "x.", abbreviation := none, alternateNames := none
    mascot := none, logos := some [] }

/-- Witness for C4: the chain applied to a one-team directory and to
the empty directory. -/
theorem resolveEntry_priority_witness :
    resolveEntry (buildDirectory [cexT1]) "X" = some (entryOf cexT1) ∧
    resolveEntry (buildDirectory []) "Q" =
      mget (buildDirectory []).byAbbr (norm "Q") :=
  ⟨(resolveEntry_priority (buildDirectory [cexT1]) "X").1 (entryOf cexT1)
      (by decide),
   (resolveEntry_priority (buildDirectory []) "Q").2.2.2
      (by decide) (by decide) (by decide)⟩

/-- Counterexample to C5 as stated: the key "X" already exists in the
map after the per-schedule-name pass (with value null), yet the
supplementary pass changes it, because its guard `!teamLogos[t.school]`
treats a present-but-null entry like a missing one. -/
theorem suppPass_changes_existing_entry :
    mget (firstPass ["X"] [cexT1, cexT2]) "X" = some none ∧
    mget (buildTeamLogosMap ["X"] [cexT1, cexT2]) "X" = some (some "L1") := by
  decide

theorem mget_foldl_mset_not_mem {β : Type} (f : String → β)
    (names : List String) (m : List (String × β)) (name : String)
    (h : name ∉ names) :
    mget (names.foldl (fun acc n => mset acc n (f n)) m) name = mget m name := by
  induction names generalizing m with
  | nil => rfl
  | cons n rest ih =>
      simp only [List.foldl_cons]
      rw [ih (mset m n (f n)) (fun hx => h (List.mem_cons_of_mem n hx)),
        mget_mset_ne m n name (f n) (fun e => h (e ▸ List.mem_cons_self n rest))]

theorem mget_foldl_mset_mem {β : Type} (f : String → β)
    (names : List String) (m : List (String × β)) (name : String)
    (h : name ∈ names) :
    mget (names.foldl (fun acc n => mset acc n (f n)) m) name = some (f name) := by
  induction names generalizing m with
  | nil => simp at h
  | cons n rest ih =>
      simp only [List.foldl_cons]
      by_cases hr : name ∈ rest
      · exact ih (mset m n (f n)) hr
      · have hn : name = n := by
          rcases List.mem_cons.mp h with h1 | h1
          · exact h1
          · exact absurd h1 hr
        subst hn
        rw [mget_foldl_mset_not_mem f rest _ name hr, mget_mset_self]

theorem mget_suppStep_isSome (m : List (String × Option String))
    (t : TeamMeta) (k : String) (h : (mget m k).isSome) :
    (mget (suppStep m t) k).isSome := by
  rw [suppStep]
  split
  · exact mget_mset_isSome m _ k _ h
  · exact h

theorem mget_suppPass_isSome (meta : List TeamMeta)
    (m : List (String × Option String)) (k : String)
    (h : (mget m k).isSome) : (mget (suppPass meta m) k).isSome := by
  induction meta generalizing m with
  | nil => exact h
  | cons t rest ih => exact ih (suppStep m t) (mget_suppStep_isSome m t k h)

theorem mget_suppStep_of_truthy (m : List (String × Option String))
    (t : TeamMeta) (s : String) (h : truthyLogoVal (mget m s) = true) :
    mget (suppStep m t) s = mget m s := by
  rw [suppStep]
  split
  next hg =>
    rw [Bool.and_eq_true] at hg
    by_cases hk : s = t.school.getD ""
    · subst hk
      rw [h] at hg
      simp at hg
    · exact mget_mset_ne m _ s _ hk
  next => rfl

theorem mget_suppPass_of_truthy (meta : List TeamMeta)
    (m : List (String × Option String)) (s : String)
    (h : truthyLogoVal (mget m s) = true) :
    mget (suppPass meta m) s = mget m s := by
  induction meta generalizing m with
  | nil => rfl
  | cons t rest ih =>
      have hstep := mget_suppStep_of_truthy m t s h
      calc mget (suppPass rest (suppStep m t)) s
          = mget (suppStep m t) s := ih (suppStep m t) (by rw [hstep]; exact h)
        _ = mget m s := hstep

theorem mget_suppStep_ne (m : List (String × Option String))
    (t : TeamMeta) (s : String)
    (h : truthyOpt t.school = true → t.school.getD "" ≠ s) :
    mget (suppStep m t) s = mget m s := by
  rw [suppStep]
  split
  next hg =>
    rw [Bool.and_eq_true] at hg
    exact mget_mset_ne m _ s _ (fun e => h hg.1 e.symm)
  next => rfl

theorem mget_suppPass_ne (meta : List TeamMeta)
    (m : List (String × Option String)) (s : String)
    (h : ∀ t ∈ meta, truthyOpt t.school = true → t.school.getD "" ≠ s) :
    mget (suppPass meta m) s = mget m s := by
  induction meta generalizing m with
  | nil => rfl
  | cons t rest ih =>
      calc mget (suppPass rest (suppStep m t)) s
          = mget (suppStep m t) s :=
            ih (suppStep m t) (fun x hx => h x (List.mem_cons_of_mem t hx))
        _ = mget m s := mget_suppStep_ne m t s (h t (List.mem_cons_self t rest))

theorem addTeam_bySchool (d : Directory) (t : TeamMeta) :
    (addTeam d t).bySchool =
      if truthyOpt t.school then
        mset d.bySchool (norm (t.school.getD "")) (entryOf t)
      else d.bySchool := by
  rw [addTeam]
  by_cases h1 : truthyOpt t.school = true <;>
    by_cases h2 : truthyOpt t.abbreviation = true <;>
    by_cases h3 : truthyOpt t.mascot = true <;>
    simp [h1, h2, h3]

theorem addTeam_bySchool_isSome (d : Directory) (t : TeamMeta) (k : String)
    (h : (mget d.bySchool k).isSome) :
    (mget (addTeam d t).bySchool k).isSome := by
  rw [addTeam_bySchool]
  split
  · exact mget_mset_isSome _ _ k _ h
  · exact h

theorem foldl_addTeam_bySchool_isSome (meta : List TeamMeta) (d : Directory)
    (k : String) (h : (mget d.bySchool k).isSome) :
    (mget ((meta.foldl addTeam d).bySchool) k).isSome := by
  induction meta generalizing d with
  | nil => exact h
  | cons t rest ih => exact ih (addTeam d t) (addTeam_bySchool_isSome d t k h)

theorem school_in_bySchool (meta : List TeamMeta) (d : Directory)
    (t : TeamMeta) (ht : t ∈ meta) (hs : truthyOpt t.school = true) :
    (mget ((meta.foldl addTeam d).bySchool) (norm (t.school.getD ""))).isSome := by
  induction meta generalizing d with
  | nil => simp at ht
  | cons t0 rest ih =>
      simp only [List.foldl_cons]
      rcases List.mem_cons.mp ht with h1 | h1
      · subst h1
        refine foldl_addTeam_bySchool_isSome rest (addTeam d t) _ ?_
        rw [addTeam_bySchool, if_pos hs, mget_mset_self]
        rfl
      · exact ih (addTeam d t0) h1

theorem resolveEntry_none_bySchool (d : Directory) (name : String)
    (h : resolveEntry d name = none) : mget d.bySchool (norm name) = none := by
  cases hh : mget d.bySchool (norm name) with
  | none => rfl
  | some e =>
      rw [resolveEntry, hh] at h
      exact absurd h (by simp)

/-- C6: when no fallback step matches, the final map holds exactly null
for that schedule name; when the matched entry has no primary logo the
resolver also yields null; the per-schedule pass stores the resolver's
result for every input name, and every input name is present as a key
in the final output map. -/
theorem resolveLogo_null :
    (∀ (d : Directory) (name : String),
        resolveEntry d name = none → resolveLogo d name = none) ∧
    (∀ (d : Directory) (name : String) (e : DirEntry),
        resolveEntry d name = some e → e.logo = none →
        resolveLogo d name = none) ∧
    (∀ (fbsTeams : List String) (meta : List TeamMeta) (name : String),
        name ∈ fbsTeams →
        mget (firstPass fbsTeams meta) name
          = some (resolveLogo (buildDirectory meta) name)) ∧
    (∀ (fbsTeams : List String) (meta : List TeamMeta) (name : String),
        name ∈ fbsTeams →
        (mget (buildTeamLogosMap fbsTeams meta) name).isSome) ∧
    (∀ (fbsTeams : List String) (meta : List TeamMeta) (name : String),
        name ∈ fbsTeams → resolveEntry (buildDirectory meta) name = none →
        mget (buildTeamLogosMap fbsTeams meta) name = some none) := by
  have hfirst : ∀ (fbsTeams : List String) (meta : List TeamMeta)
      (name : String), name ∈ fbsTeams →
      mget (firstPass fbsTeams meta) name
        = some (resolveLogo (buildDirectory meta) name) := by
    intro fbsTeams meta name h
    exact mget_foldl_mset_mem (resolveLogo (buildDirectory meta)) fbsTeams [] name h
  refine ⟨?_, ?_, hfirst, ?_, ?_⟩
  · intro d name h
    rw [resolveLogo, h]
  · intro d name e h hl
    rw [resolveLogo, h]
    simp [hl]
  · intro fbsTeams meta name h
    refine mget_suppPass_isSome meta _ name ?_
    rw [hfirst fbsTeams meta name h]
    rfl
  · intro fbsTeams meta name hmem hnone
    rw [buildTeamLogosMap, mget_suppPass_ne, hfirst fbsTeams meta name hmem,
      resolveLogo, hnone]
    intro t ht hs he
    have hsch := school_in_bySchool meta ⟨[], [], []⟩ t ht hs
    rw [he] at hsch
    have hsch2 : (mget (buildDirectory meta).bySchool (norm name)).isSome = true :=
      hsch
    rw [resolveEntry_none_bySchool _ _ hnone] at hsch2
    exact absurd hsch2 (by simp)

/-- Witness for C6: concrete evaluations through the theorem. -/
theorem resolveLogo_null_witness :
    mget (buildTeamLogosMap ["Zzz"] []) "Zzz" = some none ∧
    resolveLogo (buildDirectory [cexT2]) "x." = none :=
  ⟨resolveLogo_null.2.2.2.2 ["Zzz"] [] "Zzz" (by decide) (by decide),
   resolveLogo_null.2.1 (buildDirectory [cexT2]) "x." (entryOf cexT2)
    (by decide) (by decide)⟩

theorem truthyLogoVal_isSome (v : Option (Option String))
    (h : truthyLogoVal v = true) : v.isSome := by
  cases v with
  | none => simp [truthyLogoVal] at h
  | some w => rfl

/-- C5 amended: after the per-schedule-name resolution, the
supplementary pass assigns a school's primary logo to every canonical
school name whose map entry is missing or holds a falsy value (null or
the empty string); only entries holding a truthy (non-null, nonempty)
logo are left unchanged, and afterwards every truthy canonical school
name is present as a key. -/
theorem suppPass_amended :
    (∀ (meta : List TeamMeta) (m : List (String × Option String)) (s : String),
        truthyLogoVal (mget m s) = true → mget (suppPass meta m) s = mget m s) ∧
    (∀ (m : List (String × Option String)) (t : TeamMeta),
        truthyOpt t.school = true →
        truthyLogoVal (mget m (t.school.getD "")) = false →
        mget (suppStep m t) (t.school.getD "") = some (primaryLogo t)) ∧
    (∀ (meta : List TeamMeta) (m : List (String × Option String))
        (t : TeamMeta), t ∈ meta → truthyOpt t.school = true →
        (mget (suppPass meta m) (t.school.getD "")).isSome) := by
  refine ⟨mget_suppPass_of_truthy, ?_, ?_⟩
  · intro m t h1 h2
    rw [suppStep, if_pos (by rw [h1, h2]; rfl), mget_mset_self]
  · intro meta m t ht hs
    induction meta generalizing m with
    | nil => simp at ht
    | cons t0 rest ih =>
        rcases List.mem_cons.mp ht with h1 | h1
        · subst h1
          refine mget_suppPass_isSome rest (suppStep m t) _ ?_
          rw [suppStep]
          split
          · rw [mget_mset_self]
            rfl
          next hg =>
            rw [hs] at hg
            simp only [Bool.true_and, Bool.not_eq_true', Bool.not_eq_false] at hg
            exact truthyLogoVal_isSome _ hg
        · exact ih (suppStep m t0) h1

/-- Witness for C5 amended: concrete evaluations through the theorem. -/
theorem suppPass_amended_witness :
    mget (suppPass [cexT2] [("Y", some "LY")]) "Y" = some (some "LY") ∧
    mget (suppStep [] cexT1) "X" = some (some "L1") :=
  ⟨suppPass_amended.1 [cexT2] [("Y", some "LY")] "Y" (by decide),
   suppPass_amended.2.1 [] cexT1 (by decide) (by decide)⟩

/-! ### Statistics averager (`rowsByTeam`, src/index.js lines 227-240) -/

/-- A raw season-stat entry, with the stat name under any of three
field names and the cumulative value under any of three field names. -/
structure StatEntry where
  statName : Option String
  category : Option String
  name : Option String
  value : JVal
  stat : JVal
  statValue : JVal
deriving DecidableEq, Repr

/-- A raw season-stat row: team name under any of three field names
plus a possibly-absent stats array. -/
structure StatRow where
  team : Option String
  school : Option String
  teamName : Option String
  stats : Option (List StatEntry)
deriving DecidableEq, Repr

/-- `s.statName || s.category || s.name`. -/
def StatEntry.resolvedName (s : StatEntry) : Option String :=
  strOrOpt s.statName (strOrOpt s.category s.name)

/-- `Number(s.value ?? s.stat ?? s.statValue)`. -/
def StatEntry.resolvedVal (s : StatEntry) : JVal :=
  (s.value.coalesce (s.stat.coalesce s.statValue)).toNumber

/-- `row.team || row.school || row.teamName`. -/
def StatRow.rawTeam (r : StatRow) : Option String :=
  strOrOpt r.team (strOrOpt r.school r.teamName)

/-- The object key `rowsByTeam[team]` (JavaScript coerces an undefined
team to the key "undefined"). -/
def StatRow.objKey (r : StatRow) : String := jsStrOfOpt r.rawTeam

/-- `completedCounts[key] || 0`. -/
def countFor (counts : List (String × Nat)) (key : String) : Nat :=
  (mget counts key).getD 0

/-- One iteration of the inner `row.stats.forEach` loop:
`if (!name || !Number.isFinite(val)) return; acc[name] = val / gp`. -/
def applyStat (gp : ℚ) (acc : List (String × ℚ)) (s : StatEntry) :
    List (String × ℚ) :=
  match StatEntry.resolvedName s, StatEntry.resolvedVal s with
  | some n, JVal.num v => if n = "" then acc else mset acc n (v / gp)
  | _, _ => acc

/-- One iteration of the outer `statsRows.forEach` loop. -/
def processRow (counts : List (String × Nat)) (fbsSet : List String)
    (m : List (String × List (String × ℚ))) (row : StatRow) :
    List (String × List (String × ℚ)) :=
  let key := norm (row.rawTeam.getD "")
  if fbsSet.contains key then
    let gp : ℚ := ((max 1 (countFor counts key) : Nat) : ℚ)
    let acc := (mget m row.objKey).getD []
    mset m row.objKey ((row.stats.getD []).foldl (applyStat gp) acc)
  else m

/-- The full per-game-average computation of the `/stats` route. -/
def averageStats (statsRows : List StatRow) (counts : List (String × Nat))
    (fbsSet : List String) : List (String × List (String × ℚ)) :=
  statsRows.foldl (processRow counts fbsSet) []

theorem applyStat_skip (gp : ℚ) (acc : List (String × ℚ)) (s : StatEntry)
    (h : (truthyOpt (StatEntry.resolvedName s)
        && (StatEntry.resolvedVal s).isFiniteNum) = false) :
    applyStat gp acc s = acc := by
  rw [applyStat]
  cases hn : StatEntry.resolvedName s with
  | none => rfl
  | some n =>
      cases hv : StatEntry.resolvedVal s <;>
        simp_all [truthyOpt, JVal.isFiniteNum]

/-- A stat entry the loop does not skip: truthy resolved name and
finite converted value. -/
def goodEntry (s : StatEntry) : Bool :=
  truthyOpt (StatEntry.resolvedName s) && (StatEntry.resolvedVal s).isFiniteNum

/-- The finite value of a good entry (0 for skipped entries, which
never reach the division). -/
def StatEntry.finVal (s : StatEntry) : ℚ :=
  match StatEntry.resolvedVal s with
  | JVal.num v => v
  | _ => 0

/-- The last non-skipped entry of a stats array resolving to the given
name (object assignment `acc[name] = ...` is last-write-wins). -/
def goodLast (stats : List StatEntry) (n : String) : Option StatEntry :=
  (stats.filter
    (fun t => goodEntry t && (StatEntry.resolvedName t == some n))).getLast?

/-- The divisor `Math.max(1, completedCounts[key] || 0)` used for a
given row. -/
def gpOf (counts : List (String × Nat)) (row : StatRow) : ℚ :=
  ((max 1 (countFor counts (norm (row.rawTeam.getD ""))) : Nat) : ℚ)

/-- Observable lookup of one reported per-game average. -/
def statOf (m : List (String × List (String × ℚ))) (team sname : String) :
    Option ℚ :=
  match mget m team with
  | some acc => mget acc sname
  | none => none

theorem goodEntry_spec (s : StatEntry) (h : goodEntry s = true) :
    ∃ n v, StatEntry.resolvedName s = some n ∧ n ≠ "" ∧
      StatEntry.resolvedVal s = JVal.num v ∧ StatEntry.finVal s = v := by
  rw [goodEntry, Bool.and_eq_true] at h
  obtain ⟨h1, h2⟩ := h
  cases hn : StatEntry.resolvedName s with
  | none => rw [hn] at h1; simp [truthyOpt] at h1
  | some n =>
      cases hv : StatEntry.resolvedVal s with
      | num v =>
          refine ⟨n, v, rfl, ?_, rfl, ?_⟩
          · rw [hn] at h1
            simpa [truthyOpt] using h1
          · rw [StatEntry.finVal, hv]
      | undef => rw [hv] at h2; simp [JVal.isFiniteNum] at h2
      | nullv => rw [hv] at h2; simp [JVal.isFiniteNum] at h2
      | nonNum => rw [hv] at h2; simp [JVal.isFiniteNum] at h2
      | strNum q => rw [hv] at h2; simp [JVal.isFiniteNum] at h2

theorem applyStat_good (gp : ℚ) (acc : List (String × ℚ)) (s : StatEntry)
    (n : String) (v : ℚ) (hn : StatEntry.resolvedName s = some n)
    (hne : n ≠ "") (hv : StatEntry.resolvedVal s = JVal.num v) :
    applyStat gp acc s = mset acc n (v / gp) := by
  rw [applyStat, hn, hv]
  simp [hne]

theorem getLast?_cons_of_some {α : Type} (x s : α) (l : List α)
    (h : l.getLast? = some s) : (x :: l).getLast? = some s := by
  cases l with
  | nil => simp at h
  | cons y ys => rw [List.getLast?_cons_cons]; exact h

theorem getLast?_cons_of_none {α : Type} (x : α) (l : List α)
    (h : l.getLast? = none) : (x :: l).getLast? = some x := by
  rw [List.getLast?_eq_none_iff] at h
  subst h
  rfl

/-- Full characterization of the inner `row.stats.forEach` fold: for
every stat name, the accumulator afterwards holds the last good entry
with that name divided by `gp`, and is untouched at names with no good
entry. -/
theorem mget_foldl_applyStat (gp : ℚ) (stats : List StatEntry)
    (acc : List (String × ℚ)) (n : String) :
    mget (stats.foldl (applyStat gp) acc) n
      = (match goodLast stats n with
         | some s => some (StatEntry.finVal s / gp)
         | none => mget acc n) := by
  induction stats generalizing acc with
  | nil => rfl
  | cons t rest ih =>
      rw [List.foldl_cons, ih (applyStat gp acc t)]
      by_cases hm : (goodEntry t
          && (StatEntry.resolvedName t == some n)) = true
      · have hgl : goodLast (t :: rest) n
            = ((t :: rest.filter
                (fun u => goodEntry u
                  && (StatEntry.resolvedName u == some n)))).getLast? := by
          rw [goodLast, List.filter_cons, if_pos hm]
        cases hrest : goodLast rest n with
        | some s =>
            rw [hgl, getLast?_cons_of_some _ s _ hrest]
        | none =>
            rw [hgl, getLast?_cons_of_none _ _ hrest]
            show mget (applyStat gp acc t) n
              = some (StatEntry.finVal t / gp)
            rw [Bool.and_eq_true] at hm
            obtain ⟨hg, hbeq⟩ := hm
            obtain ⟨n2, v, hn2, hne2, hv2, hfv⟩ := goodEntry_spec t hg
            have hnn : n2 = n := by
              rw [hn2] at hbeq
              simpa using hbeq
            subst hnn
            rw [applyStat_good gp acc t n2 v hn2 hne2 hv2, mget_mset_self, hfv]
      · have hgl : goodLast (t :: rest) n = goodLast rest n := by
          rw [goodLast, List.filter_cons, if_neg hm, goodLast]
        rw [hgl]
        cases hrest : goodLast rest n with
        | some s => rfl
        | none =>
            cases hg : goodEntry t with
            | false => rw [applyStat_skip gp acc t hg]
            | true =>
                obtain ⟨n2, v, hn2, hne2, hv2, hfv⟩ := goodEntry_spec t hg
                have hnn : n ≠ n2 := by
                  intro he
                  rw [hg, hn2, he] at hm
                  simp at hm
                rw [applyStat_good gp acc t n2 v hn2 hne2 hv2,
                  mget_mset_ne acc n2 n _ hnn]

/-- C3: for every stat row of an FBS team, each finite numeric stat
value is divided by `max 1 (completed count)` (the last good entry per
name winning, as object assignment does); a team with no entry in the
completed-counts mapping reports the raw cumulative value; and a stat
entry with a falsy name or non-finite value, at any position, is
skipped without dropping the rest of the row. All statements are
general in the intermediate row map, so they cover every payload. -/
theorem averageStats_correct :
    (∀ (gp : ℚ) (acc : List (String × ℚ)) (stats : List StatEntry)
        (n : String) (s : StatEntry),
        goodLast stats n = some s →
        mget (stats.foldl (applyStat gp) acc) n
          = some (StatEntry.finVal s / gp)) ∧
    (∀ (gp : ℚ) (acc : List (String × ℚ)) (stats : List StatEntry)
        (n : String),
        goodLast stats n = none →
        mget (stats.foldl (applyStat gp) acc) n = mget acc n) ∧
    (∀ (counts : List (String × Nat)) (fbsSet : List String)
        (m : List (String × List (String × ℚ))) (row : StatRow),
        fbsSet.contains (norm (row.rawTeam.getD "")) = true →
        processRow counts fbsSet m row
          = mset m row.objKey ((row.stats.getD []).foldl
              (applyStat (gpOf counts row)) ((mget m row.objKey).getD []))) ∧
    (∀ (counts : List (String × Nat)) (fbsSet : List String)
        (m : List (String × List (String × ℚ))) (row : StatRow)
        (n : String) (s : StatEntry),
        fbsSet.contains (norm (row.rawTeam.getD "")) = true →
        goodLast (row.stats.getD []) n = some s →
        statOf (processRow counts fbsSet m row) row.objKey n
          = some (StatEntry.finVal s / gpOf counts row)) ∧
    (∀ (counts : List (String × Nat)) (fbsSet : List String)
        (m : List (String × List (String × ℚ))) (row : StatRow)
        (n : String) (s : StatEntry),
        fbsSet.contains (norm (row.rawTeam.getD "")) = true →
        goodLast (row.stats.getD []) n = some s →
        mget counts (norm (row.rawTeam.getD "")) = none →
        statOf (processRow counts fbsSet m row) row.objKey n
          = some (StatEntry.finVal s)) ∧
    (∀ (counts : List (String × Nat)) (fbsSet : List String)
        (m : List (String × List (String × ℚ))) (row : StatRow)
        (bad : StatEntry) (pre post : List StatEntry),
        row.stats = some (pre ++ bad :: post) →
        goodEntry bad = false →
        processRow counts fbsSet m row
          = processRow counts fbsSet m
              { row with stats := some (pre ++ post) }) := by
  have hA : ∀ (gp : ℚ) (acc : List (String × ℚ)) (stats : List StatEntry)
      (n : String) (s : StatEntry),
      goodLast stats n = some s →
      mget (stats.foldl (applyStat gp) acc) n
        = some (StatEntry.finVal s / gp) := by
    intro gp acc stats n s h
    rw [mget_foldl_applyStat, h]
  have hC : ∀ (counts : List (String × Nat)) (fbsSet : List String)
      (m : List (String × List (String × ℚ))) (row : StatRow),
      fbsSet.contains (norm (row.rawTeam.getD "")) = true →
      processRow counts fbsSet m row
        = mset m row.objKey ((row.stats.getD []).foldl
            (applyStat (gpOf counts row)) ((mget m row.objKey).getD [])) := by
    intro counts fbsSet m row hc
    simp only [processRow, gpOf, hc, if_true]
  have hD : ∀ (counts : List (String × Nat)) (fbsSet : List String)
      (m : List (String × List (String × ℚ))) (row : StatRow)
      (n : String) (s : StatEntry),
      fbsSet.contains (norm (row.rawTeam.getD "")) = true →
      goodLast (row.stats.getD []) n = some s →
      statOf (processRow counts fbsSet m row) row.objKey n
        = some (StatEntry.finVal s / gpOf counts row) := by
    intro counts fbsSet m row n s hc hgl
    rw [statOf, hC counts fbsSet m row hc, mget_mset_self]
    exact hA (gpOf counts row) _ _ n s hgl
  refine ⟨hA, ?_, hC, hD, ?_, ?_⟩
  · intro gp acc stats n h
    rw [mget_foldl_applyStat, h]
  · intro counts fbsSet m row n s hc hgl hnone
    have h0 : gpOf counts row = 1 := by
      simp [gpOf, countFor, hnone]
    rw [hD counts fbsSet m row n s hc hgl, h0, div_one]
  · intro counts fbsSet m row bad pre post hs hbad
    have hteam : StatRow.rawTeam { row with stats := some (pre ++ post) }
        = StatRow.rawTeam row := rfl
    have hkey : StatRow.objKey { row with stats := some (pre ++ post) }
        = StatRow.objKey row := rfl
    have hfold : ∀ (gp : ℚ) (acc : List (String × ℚ)),
        (pre ++ bad :: post).foldl (applyStat gp) acc
          = (pre ++ post).foldl (applyStat gp) acc := by
      intro gp acc
      rw [List.foldl_append, List.foldl_append, List.foldl_cons,
        applyStat_skip gp _ bad hbad]
    simp only [processRow, hteam, hkey, hs, Option.getD_some, hfold]

/-- Concrete stat entry used by the C3 witness. -/
def statYards : StatEntry :=
  { statName := some "yards", category := none, name := none
    value := JVal.num 350, stat := JVal.undef, statValue := JVal.undef }

/-- Concrete stat entry with a non-numeric value. -/
def statBad : StatEntry :=
  { statName := some "junk", category := none, name := none
    value := JVal.nonNum, stat := JVal.undef, statValue := JVal.undef }

/-- Concrete second good stat entry. -/
def statPoints : StatEntry :=
  { statName := some "points", category := none, name := none
    value := JVal.num 28, stat := JVal.undef, statValue := JVal.undef }

/-- Concrete multi-entry stat row (good, bad, good) used by the C3
witness. -/
def rowT2 : StatRow :=
  { team := some "T", school := none, teamName := none
    stats := some [statYards, statBad, statPoints] }

/-- Witness for C3: a three-entry row with a bad entry in the middle,
evaluated through the theorem with a real completed count, with no
completed count, and through the skip statement. -/
theorem averageStats_correct_witness :
    statOf (processRow [("t", 4)] ["t"] [] rowT2) "T" "yards"
      = some (StatEntry.finVal statYards / gpOf [("t", 4)] rowT2) ∧
    statOf (processRow [] ["t"] [] rowT2) "T" "points" = some 28 ∧
    processRow [] ["t"] [] rowT2
      = processRow [] ["t"] []
          { rowT2 with stats := some [statYards, statPoints] } := by
  refine ⟨?_, ?_, ?_⟩
  · have h := averageStats_correct.2.2.2.1 [("t", 4)] ["t"] [] rowT2
      "yards" statYards (by decide) (by decide)
    have hk : rowT2.objKey = "T" := by decide
    rw [hk] at h
    exact h
  · have h := averageStats_correct.2.2.2.2.1 [] ["t"] [] rowT2
      "points" statPoints (by decide) (by decide) (by decide)
    have hk : rowT2.objKey = "T" := by decide
    rw [hk] at h
    rw [h]
    rfl
  · exact averageStats_correct.2.2.2.2.2 [] ["t"] [] rowT2 statBad
      [statYards] [statPoints] (by decide) (by decide)

/-! ### Poll ranking extractor (the `/polls` week loop,
src/index.js lines 262-294) -/

/-- A ranked entry `\x7brank, team\x7d` inside a poll. -/
structure PollRank where
  rank : ℚ
  team : String
deriving DecidableEq, Repr

/-- A named poll with a possibly-absent ranks array. -/
structure Poll where
  poll : String
  ranks : Option (List PollRank)
deriving DecidableEq, Repr

/-- A rankings payload entry: a possibly-missing week number and a
possibly-absent polls array. -/
structure RankEntry where
  week : Option ℚ
  polls : Option (List Poll)
deriving DecidableEq, Repr

/-- `p.poll === 'AP Top 25'`. -/
def isAP (p : Poll) : Bool := p.poll == "AP Top 25"

/-- `p.poll === 'Coaches Poll'`. -/
def isCoaches (p : Poll) : Bool := p.poll == "Coaches Poll"

/-- `Number(entry.week || 0)`: a missing week is treated as 0. -/
def weekNum (e : RankEntry) : ℚ := e.week.getD 0

/-- Insertion into an ascending-sorted list, after all elements whose
key is less than or equal (so the overall sort is stable, like the
JavaScript `sort` with a numeric comparator). -/
def insOrd {α : Type} (key : α → ℚ) (x : α) : List α → List α
  | [] => [x]
  | y :: ys => if key y ≤ key x then y :: insOrd key x ys else x :: y :: ys

/-- Stable ascending sort by a numeric key. -/
def stableSortBy {α : Type} (key : α → ℚ) (l : List α) : List α :=
  l.foldl (fun acc x => insOrd key x acc) []

/-- `.sort((a,b) => (a.week||0) - (b.week||0))`. -/
def sortByWeek (l : List RankEntry) : List RankEntry := stableSortBy weekNum l

/-- `.sort((x,y) => x.rank - y.rank)`. -/
def sortRanks (l : List PollRank) : List PollRank :=
  stableSortBy (fun r => r.rank) l

/-- `(entry.polls || []).find(isAP)`. -/
def findAP (e : RankEntry) : Option Poll := (e.polls.getD []).find? isAP

/-- `(entry.polls || []).find(isCoaches)`. -/
def findCoaches (e : RankEntry) : Option Poll := (e.polls.getD []).find? isCoaches

/-- Negation of the stopping condition `!ap && !coaches`. -/
def hasTracked (e : RankEntry) : Bool :=
  (findAP e).isSome || (findCoaches e).isSome

/-- A per-week output bucket. -/
structure Bucket where
  week : ℚ
  ap : List PollRank
  coaches : List PollRank
deriving DecidableEq, Repr

/-- The bucket built for one non-terminal entry. -/
def bucketOf (e : RankEntry) : Bucket :=
  { week := weekNum e
    ap := (match findAP e with
           | some p => (match p.ranks with
                        | some rs => sortRanks rs
                        | none => [])
           | none => [])
    coaches := (match findCoaches e with
                | some p => (match p.ranks with
                             | some rs => sortRanks rs
                             | none => [])
                | none => []) }

/-- The `for (const entry of sorted)` loop threading the `weeks` array
and the `latest` variable, with its early `break`. -/
def pollLoop : List RankEntry → List Bucket → Option Bucket →
    List Bucket × Option Bucket
  | [], weeks, latest => (weeks, latest)
  | e :: rest, weeks, latest =>
      if hasTracked e then
        pollLoop rest (weeks ++ [bucketOf e]) (some (bucketOf e))
      else (weeks, latest)

/-- The loop run over the week-sorted payload from empty state. -/
def pollScan (entries : List RankEntry) : List Bucket × Option Bucket :=
  pollLoop (sortByWeek entries) [] none

/-- ASCII `String.prototype.toLowerCase` (the mode string is lowercased
before comparison). -/
def lowerStr (s : String) : String := ⟨s.data.map toLowerAscii⟩

/-- The whole extraction: `mode === 'all' ? weeks : (latest ? [latest] : [])`
after lowercasing the mode. -/
def extractPolls (entries : List RankEntry) (mode : String) : List Bucket :=
  let m := lowerStr mode
  let scan := pollScan entries
  if m = "all" then scan.1
  else
    match scan.2 with
    | some b => [b]
    | none => []

theorem pollLoop_fst (es : List RankEntry) (weeks : List Bucket)
    (latest : Option Bucket) :
    (pollLoop es weeks latest).1
      = weeks ++ (es.takeWhile hasTracked).map bucketOf := by
  induction es generalizing weeks latest with
  | nil => simp [pollLoop]
  | cons e rest ih =>
      rw [pollLoop]
      cases hT : hasTracked e with
      | true => simp [hT, ih, List.takeWhile_cons]
      | false => simp [hT, List.takeWhile_cons]

theorem getLast?_append_single {α : Type} (l : List α) (a : α) :
    (l ++ [a]).getLast? = some a := by
  induction l with
  | nil => rfl
  | cons b rest ih =>
      cases rest with
      | nil => rfl
      | cons c rest2 =>
          rw [List.cons_append, List.cons_append, List.getLast?_cons_cons]
          exact ih

theorem pollLoop_snd (es : List RankEntry) (weeks : List Bucket)
    (latest : Option Bucket) (h : latest = weeks.getLast?) :
    (pollLoop es weeks latest).2 = (pollLoop es weeks latest).1.getLast? := by
  induction es generalizing weeks latest with
  | nil => simpa [pollLoop] using h
  | cons e rest ih =>
      rw [pollLoop]
      cases hT : hasTracked e with
      | true =>
          simp only [hT, if_true]
          exact ih (weeks ++ [bucketOf e]) (some (bucketOf e))
            (by rw [getLast?_append_single])
      | false => simpa [hT] using h

theorem pollScan_snd (entries : List RankEntry) :
    (pollScan entries).2 = (pollScan entries).1.getLast? :=
  pollLoop_snd (sortByWeek entries) [] none rfl

theorem takeWhile_stops {α : Type} (p : α → Bool) (pre : List α) (e : α)
    (post : List α) (hpre : ∀ x ∈ pre, p x = true) (he : p e = false) :
    (pre ++ e :: post).takeWhile p = pre := by
  induction pre with
  | nil => simp [List.takeWhile_cons, he]
  | cons x rest ih =>
      simp only [List.cons_append, List.takeWhile_cons,
        hpre x (List.mem_cons_self x rest), if_true]
      rw [ih (fun y hy => hpre y (List.mem_cons_of_mem x hy))]

theorem mem_insOrd {α : Type} (key : α → ℚ) (x a : α) (l : List α) :
    a ∈ insOrd key x l ↔ a = x ∨ a ∈ l := by
  induction l with
  | nil => simp [insOrd]
  | cons y ys ih =>
      rw [insOrd]
      split
      · simp only [List.mem_cons, ih]
        tauto
      · simp only [List.mem_cons]

theorem pairwise_insOrd {α : Type} (key : α → ℚ) (x : α) (l : List α)
    (h : List.Pairwise (fun a b => key a ≤ key b) l) :
    List.Pairwise (fun a b => key a ≤ key b) (insOrd key x l) := by
  induction l with
  | nil => simp [insOrd]
  | cons y ys ih =>
      rw [List.pairwise_cons] at h
      rw [insOrd]
      split
      next hle =>
        rw [List.pairwise_cons]
        refine ⟨?_, ih h.2⟩
        intro z hz
        rcases (mem_insOrd key x z ys).mp hz with h1 | h1
        · exact h1 ▸ hle
        · exact h.1 z h1
      next hgt =>
        rw [List.pairwise_cons]
        refine ⟨?_, List.pairwise_cons.mpr h⟩
        intro z hz
        have hxy : key x ≤ key y := le_of_lt (lt_of_not_le hgt)
        rcases List.mem_cons.mp hz with h1 | h1
        · exact h1 ▸ hxy
        · exact le_trans hxy (h.1 z h1)

theorem pairwise_foldl_insOrd {α : Type} (key : α → ℚ) (l : List α)
    (acc : List α) (h : List.Pairwise (fun a b => key a ≤ key b) acc) :
    List.Pairwise (fun a b => key a ≤ key b)
      (l.foldl (fun acc x => insOrd key x acc) acc) := by
  induction l generalizing acc with
  | nil => exact h
  | cons x rest ih => exact ih (insOrd key x acc) (pairwise_insOrd key x acc h)

theorem pairwise_sortByWeek (entries : List RankEntry) :
    List.Pairwise (fun a b => weekNum a ≤ weekNum b) (sortByWeek entries) :=
  pairwise_foldl_insOrd weekNum entries [] List.Pairwise.nil

/-- Example entry for week 1 with both tracked polls present (AP ranks
deliberately unsorted in the raw payload). -/
def exEntry1 : RankEntry :=
  { week := some 1
    polls := some [
      { poll := "AP Top 25", ranks := some [⟨2, "B"⟩, ⟨1, "A"⟩] },
      { poll := "Coaches Poll", ranks := some [⟨1, "A"⟩, ⟨2, "B"⟩] }] }

/-- Example entry for week 2 with both tracked polls absent. -/
def exEntry2 : RankEntry := { week := some 2, polls := some [] }

/-- Example entry for week 3 with the AP poll present again. -/
def exEntry3 : RankEntry :=
  { week := some 3
    polls := some [{ poll := "AP Top 25", ranks := some [⟨1, "A"⟩] }] }

/-- The three-week example payload of the spec. -/
def exEntries : List RankEntry := [exEntry1, exEntry2, exEntry3]

/-- The bucket the example should produce for week 1. -/
def exBucket1 : Bucket :=
  { week := 1, ap := [⟨1, "A"⟩, ⟨2, "B"⟩], coaches := [⟨1, "A"⟩, ⟨2, "B"⟩] }

/-- C2: the extractor walks entries in ascending week order (a missing
week number being 0), stops at the first entry with both tracked polls
absent so that no entry at or after that point contributes, and on the
1/2/3-week example with mode "all" returns only the week-1 bucket. -/
theorem extractPolls_stops :
    (∀ entries, List.Pairwise (fun a b => weekNum a ≤ weekNum b)
        (sortByWeek entries)) ∧
    (∀ (entries pre post : List RankEntry) (e : RankEntry),
        sortByWeek entries = pre ++ e :: post →
        (∀ x ∈ pre, hasTracked x = true) →
        hasTracked e = false →
        extractPolls entries "all" = pre.map bucketOf) ∧
    extractPolls exEntries "all" = [exBucket1] := by
  refine ⟨pairwise_sortByWeek, ?_, by decide⟩
  intro entries pre post e hsplit hpre he
  have hall : lowerStr "all" = "all" := by decide
  simp only [extractPolls, hall, if_true]
  rw [pollScan, pollLoop_fst, hsplit, takeWhile_stops hasTracked pre e post hpre he]
  rfl

/-- Witness for C2: the stopping statement applied to the concrete
example payload. -/
theorem extractPolls_stops_witness :
    extractPolls exEntries "all" = [exEntry1].map bucketOf :=
  extractPolls_stops.2.1 exEntries [exEntry1] [exEntry3] exEntry2
    (by decide) (by decide) (by decide)

/-- C7: mode "latest" yields the single last collected bucket (or the
empty sequence when none was collected), and mode "all" yields every
collected bucket, which appear in ascending week order. -/
theorem extractPolls_modes (entries : List RankEntry) :
    extractPolls entries "all" = (pollScan entries).1 ∧
    extractPolls entries "latest"
      = (match (pollScan entries).1.getLast? with
         | some b => [b]
         | none => []) ∧
    List.Pairwise (fun b1 b2 => b1.week ≤ b2.week)
      (extractPolls entries "all") := by
  have hall : lowerStr "all" = "all" := by decide
  have hlat : lowerStr "latest" = "latest" := by decide
  have hfst : extractPolls entries "all" = (pollScan entries).1 := by
    simp [extractPolls, hall]
  refine ⟨hfst, ?_, ?_⟩
  · simp only [extractPolls, hlat]
    rw [if_neg (by decide), pollScan_snd]
  · rw [hfst, pollScan, pollLoop_fst, List.nil_append]
    have hsub : List.Sublist ((sortByWeek entries).takeWhile hasTracked)
        (sortByWeek entries) := (List.takeWhile_prefix hasTracked).sublist
    have hpw := (pairwise_sortByWeek entries).sublist hsub
    exact List.pairwise_map.mpr (hpw.imp (fun h => h))

/-- C10: for every mode string whose lowercased form is not "all", the
extractor behaves exactly as in "latest" mode. -/
theorem extractPolls_default (entries : List RankEntry) (mode : String)
    (h : lowerStr mode ≠ "all") :
    extractPolls entries mode = extractPolls entries "latest" ∧
    extractPolls entries mode
      = (match (pollScan entries).1.getLast? with
         | some b => [b]
         | none => []) := by
  have hlat : lowerStr "latest" = "latest" := by decide
  have h1 : extractPolls entries mode
      = (match (pollScan entries).2 with
         | some b => [b]
         | none => []) := by
    simp only [extractPolls]
    rw [if_neg h]
  have h2 : extractPolls entries "latest"
      = (match (pollScan entries).2 with
         | some b => [b]
         | none => []) := by
    simp only [extractPolls, hlat]
    rw [if_neg (by decide)]
  refine ⟨h1.trans h2.symm, ?_⟩
  rw [h1, pollScan_snd]

/-- Witness for C10: an uppercase mode string behaves like "latest" on
the example payload. -/
theorem extractPolls_default_witness :
    extractPolls exEntries "LATEST" = extractPolls exEntries "latest" ∧
    extractPolls exEntries "LATEST"
      = (match (pollScan exEntries).1.getLast? with
         | some b => [b]
         | none => []) :=
  extractPolls_default exEntries "LATEST" (by decide)

end FR
